import Mathlib

/-!
Verification of the trinoise engine (`src/lib.rs`).

The four Rust functions are embedded over `Nat`:

* `aligned v base` — `pub fn aligned(mut v: u64, base: u8) -> u8`:
  for `i` in `(0..base).rev()`, compare `v % base` with `i`, then `v /= base`.
  None of the operations involved (`%`, `/`, a sum bounded by `base ≤ 255`)
  can overflow the machine widths, so the `Nat` translation agrees with the
  `u64`/`u8` source on every machine value.
* `nextFuel base v fuel` — the loop body of `pub fn next(mut v: u64, base: u8) -> u8`
  with an explicit step budget; the source loop has none, and indeed it never
  breaks when `base < 2` (proved below), so the budgeted form returns `none`
  exactly when the source loop is still running after `fuel` steps.
  `next v base` takes budget `base`, which is proved sufficient for every
  `base ≥ 2` (`nextFuel_at_base`).
* `tri c base` — `pub fn tri(c: u8, base: u8) -> u8`, a pure conditional.
* `signatureAux base e v fuel` — the `while v + 1 < end` loop of
  `pub fn signature(base: u8) -> Vec<u8>` with the bound `e` passed in and an
  explicit iteration budget; `signature base` runs it from `v = 0` with bound
  `base ^ base` and budget `base ^ base`, proved sufficient because the cursor
  advances by at least one per iteration (`signatureAux_stable`), then appends
  the trailing `0` that the source pushes after its loop.
* `signatureU64 base` — the same loop, but with the bound computed the way a
  release build computes `(base as u64).pow(base as u32)` when it overflows:
  wrapping modulo `2 ^ 64`.
-/

/-- The digit-comparison loop of `aligned`: with `k` comparisons left, compare
`v % base` with `k - 1` (the loop variable of `for i in (0..base).rev()`),
then continue on `v / base`. -/
def alignedAux (base : Nat) : Nat → Nat → Nat
  | _, 0 => 0
  | v, k + 1 => (if v % base = k then 1 else 0) + alignedAux base (v / base) k

/-- `pub fn aligned(mut v: u64, base: u8) -> u8`: number of digit positions of
`v` in base `base` that agree with the identity map, scanning `base` digits
least-significant first against the reference values `base-1, base-2, ..., 0`. -/
def aligned (v base : Nat) : Nat := alignedAux base v base

/-- The loop of `pub fn next(mut v: u64, base: u8) -> u8` with an explicit step
budget: each step compares `aligned (v+1)` with `aligned v`; on a match the run
counter grows and `v` advances, otherwise the loop breaks with the counter.
`none` means the budget ran out before the loop broke. -/
def nextFuel (base : Nat) : Nat → Nat → Option Nat
  | _, 0 => none
  | v, fuel + 1 =>
    if aligned (v + 1) base = aligned v base then
      Option.map (fun r => r + 1) (nextFuel base (v + 1) fuel)
    else some 0

/-- `pub fn next(mut v: u64, base: u8) -> u8`: the number of successors of `v`
sharing its alignment count. Budget `base` is proved sufficient for every
`base ≥ 2` (`nextFuel_at_base`), so on that domain this is exactly the value
the source loop returns. -/
def next (v base : Nat) : Nat := (nextFuel base v base).getD 0

/-- `pub fn tri(c: u8, base: u8) -> u8`: maps `0 => 0`, `base - 2 => 1`,
anything else `=> 2`. -/
def tri (c base : Nat) : Nat := if c = 0 then 0 else if c = base - 2 then 1 else 2

/-- The `while v + 1 < end` loop of `signature`, with the bound `e` a parameter
and an explicit iteration budget: each iteration computes the run length `n`,
advances the cursor by `n + 1` and emits `tri n base`. -/
def signatureAux (base e : Nat) : Nat → Nat → List Nat
  | _, 0 => []
  | v, fuel + 1 =>
    if v + 1 < e then
      tri (next v base) base :: signatureAux base e (v + next v base + 1) fuel
    else []

/-- `pub fn signature(base: u8) -> Vec<u8>`: run the loop from `v = 0` with
`end = base ^ base` (exact, no overflow for `base ≤ 15`), then push the final
`0` — "the end always has no successors". Budget `base ^ base` is proved
sufficient (`signatureAux_stable`). -/
def signature (base : Nat) : List Nat :=
  signatureAux base (base ^ base) 0 (base ^ base) ++ [0]

/-- `signature` with the `end = (base as u64).pow(base as u32)` boundary
computed with wrapping 64-bit arithmetic (release-build semantics when
`base ^ base` overflows `u64`). -/
def signatureU64 (base : Nat) : List Nat :=
  signatureAux base (base ^ base % 2 ^ 64) 0 (base ^ base % 2 ^ 64) ++ [0]

/-- The canonical identity value on `k` digits, built least-significant digit
last: `idVal base k` has base-`base` digits `k-1, k-2, ..., 0` reading from the
least-significant position upward, i.e. the reference pattern of `aligned`. -/
def idVal (base : Nat) : Nat → Nat
  | 0 => 0
  | k + 1 => k + base * idVal base k

/-- Cursor positions reached by the `signature` loop: `0` is reached, and from
a reached `v` still inside the loop guard the cursor moves to
`v + next v base + 1`. -/
inductive Reaches (base : Nat) : Nat → Prop
  | zero : Reaches base 0
  | step : ∀ v, Reaches base v → v + 1 < base ^ base →
      Reaches base (v + next v base + 1)

/-- Incrementing a value whose last digit does not carry: the quotient by the
base is unchanged and the remainder grows by one. -/
theorem succ_mod_div (n v : Nat) (h : v % n + 1 < n) :
    (v + 1) % n = v % n + 1 ∧ (v + 1) / n = v / n := by
have h0 : 0 < n := by omega
have hd := Nat.div_add_mod v n
have hv : v + 1 = (v % n + 1) + n * (v / n) := by omega
constructor
· rw [hv, Nat.add_mul_mod_self_left, Nat.mod_eq_of_lt h]
· rw [hv, Nat.add_mul_div_left _ _ h0, Nat.div_eq_of_lt h, Nat.zero_add]

/-- Alignment counts at most one position per comparison step. -/
theorem alignedAux_le (base : Nat) : ∀ k v, alignedAux base v k ≤ k := by
intro k
induction k with
| zero => intro v; exact Nat.le_refl 0
| succ k ih =>
  intro v
  have := ih (v / base)
  simp only [alignedAux]
  split <;> omega

/-- `aligned` only looks at the low `base` digits of `v`, so it is invariant
under reduction modulo `base ^ base` (digit window truncation). -/
theorem alignedAux_mod (base : Nat) : ∀ k v,
    alignedAux base v k = alignedAux base (v % base ^ k) k := by
intro k
induction k with
| zero => intro v; rfl
| succ k ih =>
  intro v
  have hdvd : base ∣ base ^ (k + 1) := dvd_pow_self base (Nat.succ_ne_zero k)
  have h1 : v % base ^ (k + 1) % base = v % base := Nat.mod_mod_of_dvd v hdvd
  have h2 : v % base ^ (k + 1) / base = v / base % base ^ k := by
    rw [pow_succ']
    exact Nat.mod_mul_right_div_self v base (base ^ k)
  simp only [alignedAux, h1, h2]
  rw [← ih (v / base)]

/-- When the last digit of `v` is strictly below `base - 2`, stepping to
`v + 1` changes no comparison outcome: alignment is preserved. -/
theorem aligned_cont (N v : Nat) (h : v % N + 2 < N) :
    aligned (v + 1) N = aligned v N := by
obtain ⟨m, rfl⟩ : ∃ m, N = m + 1 := ⟨N - 1, by omega⟩
obtain ⟨hmod, hdiv⟩ := succ_mod_div (m + 1) v (by omega)
show alignedAux (m + 1) (v + 1) (m + 1) = alignedAux (m + 1) v (m + 1)
simp only [alignedAux, hmod, hdiv]
have h1 : ¬(v % (m + 1) + 1 = m) := by omega
have h2 : ¬(v % (m + 1) = m) := by omega
simp [h1, h2]

/-- When the last digit of `v` is exactly `base - 2`, stepping to `v + 1`
turns the last comparison from a mismatch into a match: alignment changes. -/
theorem aligned_break (N v : Nat) (h2 : 2 ≤ N) (h : v % N + 2 = N) :
    aligned (v + 1) N ≠ aligned v N := by
obtain ⟨m, rfl⟩ : ∃ m, N = m + 1 := ⟨N - 1, by omega⟩
obtain ⟨hmod, hdiv⟩ := succ_mod_div (m + 1) v (by omega)
show alignedAux (m + 1) (v + 1) (m + 1) ≠ alignedAux (m + 1) v (m + 1)
simp only [alignedAux, hmod, hdiv]
have h1 : v % (m + 1) + 1 = m := by omega
have h2 : ¬(v % (m + 1) = m) := by omega
simp [h1, h2]

/-- One unfolding of the `next` loop with positive remaining budget. -/
theorem nextFuel_succ (base v fuel : Nat) :
    nextFuel base v (fuel + 1) =
      if aligned (v + 1) base = aligned v base then
        Option.map (fun r => r + 1) (nextFuel base (v + 1) fuel)
      else some 0 := rfl

/-- A loop result obtained within some budget is stable under any larger
budget: `nextFuel` is monotone in its fuel. -/
theorem nextFuel_mono (base : Nat) : ∀ f g v r,
    nextFuel base v f = some r → nextFuel base v (f + g) = some r := by
intro f
induction f with
| zero => intro g v r h; simp [nextFuel] at h
| succ f ih =>
  intro g v r h
  have hgoal : f + 1 + g = (f + g) + 1 := by omega
  rw [hgoal]
  simp only [nextFuel] at h ⊢
  by_cases hc : aligned (v + 1) base = aligned v base
  · simp only [hc, if_true] at h ⊢
    rw [Option.map_eq_some'] at h
    obtain ⟨a, ha, rfl⟩ := h
    rw [Option.map_eq_some']
    exact ⟨a, ih g (v + 1) a ha, rfl⟩
  · simp only [hc, if_false] at h ⊢
    exact h

/-- From a cursor whose last digit is `base - 2 - k`, the `next` loop runs for
exactly `k` matching successors (budget `k + 1` suffices): alignment is stable
until the last digit reaches `base - 2`, where it breaks. -/
theorem nextFuel_run (N : Nat) (h2 : 2 ≤ N) : ∀ k v, v % N + k + 2 = N →
    nextFuel N v (k + 1) = some k := by
intro k
induction k with
| zero =>
  intro v hv
  have hb := aligned_break N v h2 (by omega)
  simp [nextFuel, hb]
| succ k ih =>
  intro v hv
  have hc := aligned_cont N v (by omega)
  have hmod := (succ_mod_div N v (by omega)).1
  have hrec := ih (v + 1) (by omega)
  rw [nextFuel_succ, if_pos hc, hrec]
  rfl

/-- At a cursor whose last digit is at most `base - 2`, the source loop
terminates within budget `base` and `next` returns exactly
`base - 2 - (v % base)` (phrased without truncated subtraction). -/
theorem next_run (N v : Nat) (h2 : 2 ≤ N) (h : v % N + 2 ≤ N) :
    nextFuel N v N = some (next v N) ∧ next v N + v % N + 2 = N := by
have hk : v % N + (N - (v % N + 2)) + 2 = N := by omega
have h1 := nextFuel_run N h2 (N - (v % N + 2)) v hk
have h3 := nextFuel_mono N (N - (v % N + 2) + 1) (N - (N - (v % N + 2) + 1)) v
  (N - (v % N + 2)) h1
have h2' : N - (v % N + 2) + 1 + (N - (N - (v % N + 2) + 1)) = N := by omega
rw [h2'] at h3
have h4 : next v N = N - (v % N + 2) := by
  unfold next
  rw [h3]
  rfl
rw [h4]
exact ⟨h3, by omega⟩

/-- At a cursor whose last digit is `base - 1`, the source loop terminates
within budget `base` and `next` returns either `0` (alignment changed at the
carry) or `base - 1` (the carry preserved alignment, after which the run
continues through a fresh block of `base - 2` stable successors). -/
theorem next_hi (N v : Nat) (h2 : 2 ≤ N) (h : v % N + 1 = N) :
    nextFuel N v N = some (next v N) ∧ (next v N = 0 ∨ next v N + 1 = N) := by
obtain ⟨m, hm⟩ : ∃ m, N = m + 2 := ⟨N - 2, by omega⟩
by_cases hc : aligned (v + 1) N = aligned v N
· have hd := Nat.div_add_mod v N
  have hv1 : v + 1 = N * (v / N + 1) := by
    rw [Nat.mul_succ]
    omega
  have hmod1 : (v + 1) % N = 0 := by rw [hv1, Nat.mul_mod_right]
  have hrun : nextFuel N (v + 1) (m + 1) = some m := by
    apply nextFuel_run N h2 m (v + 1)
    omega
  have hfuel : nextFuel N v N = some (m + 1) := by
    rw [hm, nextFuel_succ, if_pos (hm ▸ hc)]
    rw [hm] at hrun
    rw [hrun]
    rfl
  have hnext : next v N = m + 1 := by unfold next; rw [hfuel]; rfl
  rw [hnext, hfuel]
  exact ⟨rfl, Or.inr (by omega)⟩
· have hfuel : nextFuel N v N = some 0 := by
    rw [hm]
    rw [show m + 2 = (m + 1) + 1 from rfl, nextFuel_succ, if_neg (hm ▸ hc)]
  have hnext : next v N = 0 := by unfold next; rw [hfuel]; rfl
  rw [hnext, hfuel]
  exact ⟨rfl, Or.inl rfl⟩

/-- For any base at least `2`, the `next` loop terminates within budget `base`
at every start value: budget `base` is never exhausted. -/
theorem nextFuel_at_base (N v : Nat) (h2 : 2 ≤ N) :
    nextFuel N v N = some (next v N) := by
have hlt : v % N < N := Nat.mod_lt v (by omega)
by_cases h : v % N + 2 ≤ N
· exact (next_run N v h2 h).1
· exact (next_hi N v h2 (by omega)).1

/-- Run lengths are bounded: `next v N + 1 ≤ N` for every `v` and `N ≥ 2`. -/
theorem next_add_one_le (N v : Nat) (h2 : 2 ≤ N) : next v N + 1 ≤ N := by
have hlt : v % N < N := Nat.mod_lt v (by omega)
by_cases h : v % N + 2 ≤ N
· have := (next_run N v h2 h).2
  omega
· have := (next_hi N v h2 (by omega)).2
  omega

/-- Invariant of the `signature` scan: every reached cursor position is
congruent to `0` or to `base - 1` modulo the base. -/
theorem reaches_mod (N v : Nat) (h2 : 2 ≤ N) (h : Reaches N v) :
    v % N = 0 ∨ v % N + 1 = N := by
induction h with
| zero => exact Or.inl (Nat.zero_mod N)
| step w hw hlt ih =>
  rcases ih with hw0 | hwN
  · obtain ⟨q, rfl⟩ : ∃ q, w = N * q := ⟨w / N, by
      have := Nat.div_add_mod w N; omega⟩
    have hnext := (next_run N (N * q) h2 (by omega)).2
    have hstep : N * q + next (N * q) N + 1 = N * q + (N - 1) := by omega
    rw [hstep, Nat.mul_add_mod, Nat.mod_eq_of_lt (by omega)]
    right
    omega
  · rcases (next_hi N w h2 hwN).2 with hz | hN
    · have hd := Nat.div_add_mod w N
      have hstep : w + next w N + 1 = N * (w / N + 1) := by
        rw [Nat.mul_succ]; omega
      rw [hstep, Nat.mul_mod_right]
      exact Or.inl rfl
    · have hstep : w + next w N + 1 = w + N := by omega
      rw [hstep, Nat.add_mod_right]
      exact Or.inr hwN

/-- One unfolding of the `signature` loop with positive remaining budget. -/
theorem signatureAux_succ (base e v fuel : Nat) :
    signatureAux base e v (fuel + 1) =
      if v + 1 < e then
        tri (next v base) base :: signatureAux base e (v + next v base + 1) fuel
      else [] := rfl

/-- The cursor advances by at least one per iteration, so any two budgets that
both cover the remaining distance to the bound produce the same output: the
`while` loop of `signature` terminates within `e` iterations. -/
theorem signatureAux_stable (base e : Nat) : ∀ f1 f2 v,
    e ≤ v + 1 + f1 → e ≤ v + 1 + f2 →
    signatureAux base e v f1 = signatureAux base e v f2 := by
intro f1
induction f1 with
| zero =>
  intro f2 v h1 h2
  cases f2 with
  | zero => rfl
  | succ g =>
    rw [signatureAux_succ, if_neg (by omega)]
    rfl
| succ f ih =>
  intro f2 v h1 h2
  cases f2 with
  | zero =>
    rw [signatureAux_succ, if_neg (by omega)]
    rfl
  | succ g =>
    rw [signatureAux_succ, signatureAux_succ]
    by_cases hv : v + 1 < e
    · rw [if_pos hv, if_pos hv, ih g (v + next v base + 1) (by omega) (by omega)]
    · rw [if_neg hv, if_neg hv]

/-- `idVal` written as the closed sum of the claim: digits `k - 1 - j` at
position `j` for `j < k`. -/
theorem idVal_eq_sum (base : Nat) : ∀ k,
    idVal base k = ∑ j in Finset.range k, (k - 1 - j) * base ^ j := by
intro k
induction k with
| zero => rfl
| succ k ih =>
  rw [Finset.sum_range_succ']
  simp only [pow_zero, Nat.sub_zero, Nat.mul_one, Nat.add_sub_cancel]
  have hterm : ∀ i ∈ Finset.range k, (k - (i + 1)) * base ^ (i + 1)
      = base * ((k - 1 - i) * base ^ i) := by
    intro i _
    rw [pow_succ']
    have heq : k - (i + 1) = k - 1 - i := by omega
    rw [heq]
    ring
  rw [Finset.sum_congr rfl hterm, ← Finset.mul_sum, ← ih]
  show k + base * idVal base k = base * idVal base k + k
  omega

/-- All `k` digit comparisons succeed on `idVal base k` when `k ≤ base`. -/
theorem alignedAux_idVal (base : Nat) : ∀ k, k ≤ base →
    alignedAux base (idVal base k) k = k := by
intro k
induction k with
| zero => intro _; rfl
| succ k ih =>
  intro hk
  show (if (k + base * idVal base k) % base = k then 1 else 0)
      + alignedAux base ((k + base * idVal base k) / base) k = k + 1
  rw [Nat.add_mul_mod_self_left, Nat.mod_eq_of_lt (by omega),
    Nat.add_mul_div_left _ _ (by omega), Nat.div_eq_of_lt (by omega),
    Nat.zero_add, if_pos rfl, ih (by omega)]
  omega

/-- C1: for every base `N > 2`, every run length returned by `next` at a
cursor position reached by the `signature` scan (with the loop guard
`v + 1 < N ^ N` still holding) is exactly `0`, `N - 2`, or `N - 1`. -/
theorem next_reached_in_three (N v : Nat) (h3 : 2 < N) (hr : Reaches N v)
    (hv : v + 1 < N ^ N) :
    next v N = 0 ∨ next v N = N - 2 ∨ next v N = N - 1 := by
have h2 : 2 ≤ N := by omega
rcases reaches_mod N v h2 hr with h0 | hN
· have := (next_run N v h2 (by omega)).2
  omega
· rcases (next_hi N v h2 hN).2 with hz | hb
  · exact Or.inl hz
  · right
    right
    omega

/-- Checks C1 at base `3`, cursor `0`. -/
theorem next_reached_in_three_check :
    Reaches 3 0 ∧ 0 + 1 < 3 ^ 3 ∧
      (next 0 3 = 0 ∨ next 0 3 = 3 - 2 ∨ next 0 3 = 3 - 1) :=
  ⟨Reaches.zero, by decide,
    next_reached_in_three 3 0 (by decide) Reaches.zero (by decide)⟩

/-- C2: for `2 ≤ N ≤ 15` the period `N ^ N` fits in 64 bits, the `signature`
loop needs at most `N ^ N` iterations (any budget at least `N ^ N` produces the
same output), and the result is a non-empty sequence ending in `0`. -/
theorem signature_terminates_last_zero (N fuel : Nat) (h2 : 2 ≤ N)
    (h15 : N ≤ 15) (hf : N ^ N ≤ fuel) :
    N ^ N < 2 ^ 64 ∧ signature N ≠ [] ∧ (signature N).getLast? = some 0 ∧
    signatureAux N (N ^ N) 0 fuel = signatureAux N (N ^ N) 0 (N ^ N) := by
refine ⟨?_, by simp [signature], by simp [signature], ?_⟩
· calc N ^ N ≤ 15 ^ N := Nat.pow_le_pow_left h15 N
    _ ≤ 15 ^ 15 := Nat.pow_le_pow_right (by norm_num) h15
    _ < 2 ^ 64 := by norm_num
· exact signatureAux_stable N (N ^ N) fuel (N ^ N) 0 (by omega) (by omega)

/-- Checks C2 at base `3` with budget `30`. -/
theorem signature_terminates_last_zero_check :
    3 ^ 3 < 2 ^ 64 ∧ signature 3 ≠ [] ∧ (signature 3).getLast? = some 0 ∧
    signatureAux 3 (3 ^ 3) 0 30 = signatureAux 3 (3 ^ 3) 0 (3 ^ 3) :=
  signature_terminates_last_zero 3 30 (by decide) (by decide) (by decide)

/-- C3: at base `16` the boundary `16 ^ 16` overflows 64-bit arithmetic, and
the unguarded code, under wrapping semantics, computes `end = 0` and returns
the sequence `[0]` instead of failing: the required overflow guard is absent
from the source. -/
theorem signature_overflow_wrapped :
    2 ^ 64 ≤ 16 ^ 16 ∧ signatureU64 16 = [0] := ⟨by norm_num, rfl⟩

/-- C4: for every base `N ≥ 2` and `v` in the period, the run length
`next v N` lies in `[0, N - 1]`. -/
theorem next_le_base_sub_one (N v : Nat) (h2 : 2 ≤ N) (hv : v < N ^ N) :
    next v N ≤ N - 1 := by
have := next_add_one_le N v h2
omega

/-- Checks C4 at base `3`, value `5`. -/
theorem next_le_base_sub_one_check : next 5 3 ≤ 3 - 1 :=
  next_le_base_sub_one 3 5 (by decide) (by decide)

/-- C5: for every base `N ≥ 2` and `v` in the period, `aligned v N ≤ N`, and
`aligned` of the canonical identity value `∑ (N - 1 - k) * N ^ k` is exactly
`N`. -/
theorem aligned_bound_and_identity (N v : Nat) (h2 : 2 ≤ N) (hv : v < N ^ N) :
    aligned v N ≤ N ∧
    aligned (∑ k in Finset.range N, (N - 1 - k) * N ^ k) N = N := by
constructor
· exact alignedAux_le N N v
· rw [← idVal_eq_sum]
  exact alignedAux_idVal N N (Nat.le_refl N)

/-- Checks C5 at base `3`, value `7`; the identity value there is `5`. -/
theorem aligned_bound_and_identity_check :
    aligned 7 3 ≤ 3 ∧
    aligned (∑ k in Finset.range 3, (3 - 1 - k) * 3 ^ k) 3 = 3 :=
  aligned_bound_and_identity 3 7 (by decide) (by decide)

/-- C6: `tri` classifies a run length `c` as `0` when `c = 0`, as `1` when
`c = N - 2` (and the first branch did not already fire, which for `N = 2`
captures `c = 0` as `Zero`), and as `2` for every other value; it is total. -/
theorem tri_cases (N c : Nat) (h2 : 2 ≤ N) :
    (c = 0 → tri c N = 0) ∧ (c ≠ 0 → c = N - 2 → tri c N = 1) ∧
    (c ≠ 0 → c ≠ N - 2 → tri c N = 2) ∧ tri 0 2 = 0 := by
refine ⟨fun h => by simp [tri, h],
  fun h1 h2' => by rw [h2'] at h1 ⊢; simp [tri, h1],
  fun h1 h2' => by simp [tri, h1, h2'], rfl⟩

/-- Checks C6 at base `2`, run length `0` (the degenerate overlap case). -/
theorem tri_cases_check :
    ((0:Nat) = 0 → tri 0 2 = 0) ∧ ((0:Nat) ≠ 0 → 0 = 2 - 2 → tri 0 2 = 1) ∧
    ((0:Nat) ≠ 0 → (0:Nat) ≠ 2 - 2 → tri 0 2 = 2) ∧ tri 0 2 = 0 :=
  tri_cases 2 0 (by decide)

/-- C7: `aligned` drops all digits beyond the `N`-digit window, so for every
64-bit value `v` it agrees with itself reduced modulo `N ^ N`. -/
theorem aligned_mod_window (N v : Nat) (h2 : 2 ≤ N) (hv : v < 2 ^ 64) :
    aligned v N = aligned (v % N ^ N) N := alignedAux_mod N N v

/-- Checks C7 at base `3`, value `100`. -/
theorem aligned_mod_window_check : aligned 100 3 = aligned (100 % 3 ^ 3) 3 :=
  aligned_mod_window 3 100 (by decide) (by decide)

/-- C8: the full signature of base `3` and its symbol counts. -/
theorem signature_base_three :
    signature 3 = [1, 2, 0, 1, 0, 1, 2, 0, 1, 0, 1, 2, 0, 1, 0] ∧
    (signature 3).count 0 = 6 ∧ (signature 3).count 1 = 6 ∧
    (signature 3).count 2 = 3 :=
  ⟨by decide, by decide, by decide, by decide⟩

/-- C9: the degenerate base `2` signature is four `Zero` symbols. -/
theorem signature_base_two : signature 2 = [0, 0, 0, 0] := by decide

/-- C10: for `base < 2` every value has the same alignment (`0` when
`base = 0`, `1` when `base = 1`), so the `next` loop never takes its break
branch: it exhausts every finite budget, hence the source loop does not
return and `base ≥ 2` is necessary for `next` to be total. -/
theorem degenerate_base_stuck (base v fuel : Nat) (h : base < 2) :
    aligned v 0 = 0 ∧ aligned v 1 = 1 ∧
    aligned (v + 1) base = aligned v base ∧ nextFuel base v fuel = none := by
have ha1 : ∀ w : Nat, aligned w 1 = 1 := by
  intro w
  show (if w % 1 = 0 then 1 else 0) + alignedAux 1 (w / 1) 0 = 1
  simp [alignedAux, Nat.mod_one]
have hconst : ∀ w : Nat, aligned (w + 1) base = aligned w base := by
  intro w
  obtain rfl | rfl : base = 0 ∨ base = 1 := by omega
  · rfl
  · rw [ha1, ha1]
have hnone : ∀ f w : Nat, nextFuel base w f = none := by
  intro f
  induction f with
  | zero => intro w; rfl
  | succ f ih =>
    intro w
    rw [nextFuel_succ, if_pos (hconst w), ih (w + 1)]
    rfl
exact ⟨rfl, ha1 v, hconst v, hnone fuel v⟩

/-- Checks C10 at base `0`, value `5`, budget `4`. -/
theorem degenerate_base_stuck_check :
    aligned 5 0 = 0 ∧ aligned 5 1 = 1 ∧
    aligned (5 + 1) 0 = aligned 5 0 ∧ nextFuel 0 5 4 = none :=
  degenerate_base_stuck 0 5 4 (by decide)
